import Mathlib

/-!
Shallow embedding of the Minesweeper AI core (src/minesweeper.py):
the Sentence constraint representation, the MinesweeperAI knowledge base
with its deductive-closure pass, and the two move selectors.

Python sets are modelled as Finset; where the source iterates over a set
(an order the Python runtime leaves unspecified) the embedding iterates in
a canonical sorted order, which is one of the possible runtime orders.
Randomness (random.randrange) is modelled by explicit parameters supplying
the drawn values.  While-loops with data-dependent exit conditions are run
on a fuel argument large enough that the source loop always exits first.
-/

/-- A board cell, a (row, col) pair of integers. -/
abbrev Cell : Type := ℤ × ℤ

/-- Total order on cells used to fix an iteration order for Python set
iteration (row-major). -/
def cellLE (a b : Cell) : Prop := a.1 < b.1 ∨ (a.1 = b.1 ∧ a.2 ≤ b.2)

instance : DecidableRel cellLE := fun a b => by unfold cellLE; infer_instance

instance : IsTotal Cell cellLE := by
  constructor
  intro a b
  rcases lt_trichotomy a.1 b.1 with h | h | h
  · exact Or.inl (Or.inl h)
  · rcases le_total a.2 b.2 with h2 | h2
    · exact Or.inl (Or.inr ⟨h, h2⟩)
    · exact Or.inr (Or.inr ⟨h.symm, h2⟩)
  · exact Or.inr (Or.inl h)

instance : IsTrans Cell cellLE := by
  constructor
  intro a b c hab hbc
  rcases hab with h1 | ⟨h1, h1b⟩ <;> rcases hbc with h2 | ⟨h2, h2b⟩
  · exact Or.inl (h1.trans h2)
  · exact Or.inl (h2 ▸ h1)
  · exact Or.inl (h1 ▸ h2)
  · exact Or.inr ⟨h1.trans h2, h1b.trans h2b⟩

instance : IsAntisymm Cell cellLE := by
  constructor
  intro a b hab hba
  rcases hab with h1 | ⟨h1, h1b⟩ <;> rcases hba with h2 | ⟨h2, h2b⟩
  · exact absurd (h1.trans h2) (lt_irrefl _)
  · exact absurd h1 (h2 ▸ lt_irrefl _)
  · exact absurd h2 (h1 ▸ lt_irrefl _)
  · exact Prod.ext h1 (le_antisymm h1b h2b)

/-- Lists the elements of a finite cell set in the canonical order; stands
for Python iteration over (a copy of) a set. -/
def sortCells (s : Finset Cell) : List Cell :=
  Quotient.liftOn s.val (fun l => l.insertionSort cellLE)
    (fun l₁ l₂ h => List.eq_of_perm_of_sorted
      (((l₁.perm_insertionSort cellLE).trans h).trans
        (l₂.perm_insertionSort cellLE).symm)
      (l₁.sorted_insertionSort cellLE) (l₂.sorted_insertionSort cellLE))

theorem sortCells_perm (s : Finset Cell) : (sortCells s : Multiset Cell) = s.val := by
  rcases s with ⟨val, nd⟩
  induction val using Quotient.inductionOn with
  | h l =>
    show ((l.insertionSort cellLE : List Cell) : Multiset Cell) = _
    exact Quotient.sound (l.perm_insertionSort cellLE)

theorem mem_sortCells {s : Finset Cell} {c : Cell} : c ∈ sortCells s ↔ c ∈ s := by
  rw [← Multiset.mem_coe, sortCells_perm]; rfl

theorem length_sortCells (s : Finset Cell) : (sortCells s).length = s.card := by
  have h := congrArg Multiset.card (sortCells_perm s)
  simpa using h

/-- class Sentence: a set of cells together with the number of mines among
them; the constructor also creates per-sentence safes/mines record sets. -/
structure Sentence where
  cells : Finset Cell
  count : ℤ
  safes : Finset Cell
  mines : Finset Cell
deriving DecidableEq

/-- Sentence.__init__: cells = set(cells), count = count, safes = set(),
mines = set(). -/
def Sentence.init (cells : Finset Cell) (count : ℤ) : Sentence :=
  ⟨cells, count, ∅, ∅⟩

/-- Sentence.__len__: len(self.cells). -/
def Sentence.size (s : Sentence) : ℕ := s.cells.card

/-- Sentence.__eq__: cells and count equal (the per-sentence record sets do
not participate). -/
def Sentence.pyEq (s t : Sentence) : Prop := s.cells = t.cells ∧ s.count = t.count

instance : DecidablePred fun p : Sentence × Sentence => p.1.pyEq p.2 :=
  fun p => by unfold Sentence.pyEq; infer_instance

instance Sentence.pyEqDecidable (s t : Sentence) : Decidable (s.pyEq t) := by
  unfold Sentence.pyEq; infer_instance

/-- Sentence.mark_mine: if the cell is present, remove it, decrement count,
record it in the sentence's mines set; otherwise do nothing. -/
def Sentence.mark_mine (s : Sentence) (cell : Cell) : Sentence :=
  if cell ∈ s.cells then
    ⟨s.cells.erase cell, s.count - 1, s.safes, insert cell s.mines⟩
  else s

/-- Sentence.mark_safe: if the cell is present, remove it and record it in
the sentence's safes set; otherwise do nothing. -/
def Sentence.mark_safe (s : Sentence) (cell : Cell) : Sentence :=
  if cell ∈ s.cells then
    ⟨s.cells.erase cell, s.count, insert cell s.safes, s.mines⟩
  else s

/-- Sentence.known_mines executes return self.mines() — calling the set
self.mines as a function, which unconditionally raises TypeError. -/
def Sentence.known_mines (_s : Sentence) : Except String (Finset Cell) :=
  Except.error "TypeError: set object is not callable"

/-- Sentence.known_safes executes return self.safes() — calling the set
self.safes as a function, which unconditionally raises TypeError. -/
def Sentence.known_safes (_s : Sentence) : Except String (Finset Cell) :=
  Except.error "TypeError: set object is not callable"

/-- class MinesweeperAI: the knowledge-base state. -/
structure AI where
  height : ℕ
  width : ℕ
  moves_made : Finset Cell
  mines : Finset Cell
  safes : Finset Cell
  knowledge : List Sentence
deriving DecidableEq

/-- MinesweeperAI.__init__. -/
def AI.init (height width : ℕ) : AI :=
  ⟨height, width, ∅, ∅, ∅, []⟩

/-- Default sentence used only to totalise list indexing; every index used
by the loops below is in range. -/
def dfltSentence : Sentence := Sentence.init ∅ 0

/-- MinesweeperAI.mark_mine: add the cell to the global mines set and
broadcast mark_mine to every sentence in the knowledge list. -/
def AI.mark_mine (ai : AI) (cell : Cell) : AI :=
  { ai with mines := insert cell ai.mines,
            knowledge := ai.knowledge.map (fun s => s.mark_mine cell) }

/-- MinesweeperAI.mark_safe: add the cell to the global safes set and
broadcast mark_safe to every sentence in the knowledge list. -/
def AI.mark_safe (ai : AI) (cell : Cell) : AI :=
  { ai with safes := insert cell ai.safes,
            knowledge := ai.knowledge.map (fun s => s.mark_safe cell) }

/-- MinesweeperAI.markAllSafe: snapshot the sentence's cells, then call
mark_safe on each cell of the snapshot. -/
def AI.markAllSafe (ai : AI) (sentence : Sentence) : AI :=
  (sortCells sentence.cells).foldl AI.mark_safe ai

/-- MinesweeperAI.markAllMines: snapshot the sentence's cells, then call
mark_mine on each cell of the snapshot. -/
def AI.markAllMines (ai : AI) (sentence : Sentence) : AI :=
  (sortCells sentence.cells).foldl AI.mark_mine ai

/-- MinesweeperAI.allCellsAround's inner isValidNeighbor check. -/
def AI.isValidNeighbor (ai : AI) (cell neighbor : Cell) : Bool :=
  if neighbor.1 < 0 ∨ neighbor.2 < 0 then false
  else if neighbor.1 = cell.1 ∧ neighbor.2 = cell.2 then false
  else if (ai.height : ℤ) ≤ neighbor.1 ∨ (ai.width : ℤ) ≤ neighbor.2 then false
  else true

/-- MinesweeperAI.allCellsAround: the in-bounds 8-neighbors of a cell. -/
def AI.allCellsAround (ai : AI) (cell : Cell) : Finset Cell :=
  ([-1, 0, 1] : List ℤ).foldl (fun acc x =>
    ([-1, 0, 1] : List ℤ).foldl (fun acc2 y =>
      let nb : Cell := (cell.1 + x, cell.2 + y)
      if ai.isValidNeighbor cell nb then insert nb acc2 else acc2) acc) ∅

/-- MinesweeperAI.checkNewInformation: trivial resolution of one sentence. -/
def AI.checkNewInformation (ai : AI) (sentence : Sentence) : AI :=
  if sentence.count = 0 then ai.markAllSafe sentence
  else if (sentence.size : ℤ) = sentence.count then ai.markAllMines sentence
  else ai

/-- MinesweeperAI.conclud: pairwise subset resolution of two sentences,
appending the derived sentence to the knowledge list. -/
def AI.conclud (ai : AI) (sentence1 sentence2 : Sentence) : AI :=
  if sentence2.cells = ∅ ∨ ¬ sentence2.cells ⊆ sentence1.cells then ai
  else
    { ai with knowledge := ai.knowledge ++
        [Sentence.init (sentence2.cells \ sentence1.cells)
          (sentence2.count - sentence1.count)] }

/-- Stable insertion used to model Python's stable list.sort with
key=len, reverse=True: a sentence goes after every sentence with cell-set
size greater than or equal to its own. -/
def kbGE (a b : Sentence) : Prop := b.cells.card ≤ a.cells.card

instance : DecidableRel kbGE := fun a b => by unfold kbGE; infer_instance

/-- self.knowledge.sort(key=lambda x: len(x), reverse=True) — a stable
descending sort by cell-set size. -/
def sortKnowledge (l : List Sentence) : List Sentence := l.insertionSort kbGE

/-- The inner loop of concludNewInformation: for j in range(i, stop):
self.conclud(self.knowledge[i], self.knowledge[j]); fuel counts the
remaining iterations stop - j. -/
def innerLoop (ai : AI) (i j : ℕ) : ℕ → AI
  | 0 => ai
  | fuel + 1 =>
    innerLoop
      (ai.conclud (ai.knowledge.getD i dfltSentence) (ai.knowledge.getD j dfltSentence))
      i (j + 1) fuel

/-- The outer loop of concludNewInformation: for i in range(n0):
checkNewInformation(knowledge[i]) then the inner conclud loop over
j in range(i, len(knowledge)); fuel counts the remaining iterations. -/
def outerLoop (ai : AI) (i : ℕ) : ℕ → AI
  | 0 => ai
  | fuel + 1 =>
    let ai1 := ai.checkNewInformation (ai.knowledge.getD i dfltSentence)
    let ai2 := innerLoop ai1 i i (ai1.knowledge.length - i)
    outerLoop ai2 (i + 1) fuel

/-- MinesweeperAI.concludNewInformation: sort the knowledge list by
descending size and run one closure pass over the pre-sort length. -/
def AI.concludNewInformation (ai : AI) : AI :=
  let sorted := sortKnowledge ai.knowledge
  outerLoop { ai with knowledge := sorted } 0 sorted.length

/-- Python list.remove(x): remove the first element equal (by
Sentence.__eq__) to x. -/
def removeFirst (x : Sentence) : List Sentence → List Sentence
  | [] => []
  | a :: rest => if a.pyEq x then rest else a :: removeFirst x rest

/-- One step per iteration of the Python statement
for sentence in self.knowledge: if len(sentence) == 0: remove(sentence).
The list iterator keeps an index into the list being mutated; fuel bounds
the number of iterations and initial length + 1 always suffices. -/
def cleanLoop : ℕ → List Sentence → ℕ → List Sentence
  | 0, l, _ => l
  | fuel + 1, l, idx =>
    if h : idx < l.length then
      let s := l.get ⟨idx, h⟩
      cleanLoop fuel (if s.cells = ∅ then removeFirst s l else l) (idx + 1)
    else l

/-- MinesweeperAI.clean: delete empty sentences by iterating over the
knowledge list while removing from it. -/
def AI.clean (ai : AI) : AI :=
  { ai with knowledge := cleanLoop (ai.knowledge.length + 1) ai.knowledge 0 }

/-- MinesweeperAI.add_knowledge: record the move, declare the cell safe,
append the observation sentence over the in-bounds neighbors, run one
closure pass and prune. -/
def AI.add_knowledge (ai : AI) (cell : Cell) (count : ℤ) : AI :=
  let ai1 := { ai with moves_made := insert cell ai.moves_made }
  let ai2 := ai1.mark_safe cell
  let newCells := ai2.allCellsAround cell
  let ai3 := { ai2 with knowledge := ai2.knowledge ++ [Sentence.init newCells count] }
  (ai3.concludNewInformation).clean

/-- list(s)[idx mod len(s)]: the element of s picked when randrange draws
idx mod len(s); every element is picked for some idx. -/
def pickNth (s : Finset Cell) (idx : ℕ) : Cell :=
  (sortCells s).getD (idx % s.card) ((0 : ℤ), (0 : ℤ))

/-- MinesweeperAI.make_safe_move; idx models the random.randrange draw.
The returned state is the post-call knowledge-base state (the method
assigns no attribute of self). -/
def AI.make_safe_move (ai : AI) (idx : ℕ) : AI × Option Cell :=
  let safes := ai.safes \ ai.moves_made
  let safeMove : Option Cell := if 0 < safes.card then some (pickNth safes idx) else none
  ({ height := ai.height, width := ai.width, moves_made := ai.moves_made,
     mines := ai.mines, safes := ai.safes, knowledge := ai.knowledge }, safeMove)

/-- The rejection-sampling while loop of make_random_move: return the first
draw that is in neither mines nor moves_made; none when the supplied draw
sequence runs out (the loop is still running). -/
def findMove (ai : AI) : List Cell → Option Cell
  | [] => none
  | c :: rest =>
    if c ∉ ai.mines ∧ c ∉ ai.moves_made then some c else findMove ai rest

/-- In-bounds predicate for a cell of the AI's board; random.randrange(h) ×
random.randrange(w) draws exactly the in-bounds cells. -/
def AI.inBounds (ai : AI) (c : Cell) : Prop :=
  0 ≤ c.1 ∧ c.1 < (ai.height : ℤ) ∧ 0 ≤ c.2 ∧ c.2 < (ai.width : ℤ)

instance (ai : AI) (c : Cell) : Decidable (ai.inBounds c) := by
  unfold AI.inBounds; infer_instance

/-- MinesweeperAI.make_random_move; draws models the sequence of
random.randrange pairs. Result: some none is the None return (board fully
classified), some (some c) is a returned cell, none means the rejection
loop consumed every supplied draw without returning. The returned state is
the post-call knowledge-base state (the method assigns no attribute of
self). -/
def AI.make_random_move (ai : AI) (draws : List Cell) : AI × Option (Option Cell) :=
  if ai.safes.card + ai.mines.card = ai.height * ai.width then
    ({ height := ai.height, width := ai.width, moves_made := ai.moves_made,
       mines := ai.mines, safes := ai.safes, knowledge := ai.knowledge }, some none)
  else
    ({ height := ai.height, width := ai.width, moves_made := ai.moves_made,
       mines := ai.mines, safes := ai.safes, knowledge := ai.knowledge },
     Option.map some (findMove ai draws))

/-! ### List indexing helpers -/

theorem getD_map_lt (f : Sentence → Sentence) (l : List Sentence) (i : ℕ) (d : Sentence)
    (h : i < l.length) : (l.map f).getD i d = f (l.getD i d) := by
  induction l generalizing i with
  | nil => simp at h
  | cons a t ih =>
    cases i with
    | zero => rfl
    | succ n => simpa using ih n (by simpa using h)

theorem getD_append_lt (l l₂ : List Sentence) (i : ℕ) (d : Sentence)
    (h : i < l.length) : (l ++ l₂).getD i d = l.getD i d := by
  induction l generalizing i with
  | nil => simp at h
  | cons a t ih =>
    cases i with
    | zero => rfl
    | succ n => simpa using ih n (by simpa using h)

theorem getD_eq_get_of_lt (l : List Sentence) (i : ℕ) (d : Sentence)
    (h : i < l.length) : l.getD i d = l.get ⟨i, h⟩ := by
  induction l generalizing i with
  | nil => simp at h
  | cons a t ih =>
    cases i with
    | zero => rfl
    | succ n => simpa using ih n (by simpa using h)

/-! ### Evolution of a sentence during a closure pass

A sentence only ever shrinks during a pass: a set M of its cells is removed
by mark_mine broadcasts (each decrementing the count) and a set S by
mark_safe broadcasts (leaving the count alone). -/

/-- s₁ is s₀ after its cells in M were marked as mines and its cells in S
were marked safe. -/
def SentEvolve (s₀ s₁ : Sentence) (M S : Finset Cell) : Prop :=
  M ⊆ s₀.cells ∧ S ⊆ s₀.cells ∧ Disjoint M S ∧
  s₁.cells = s₀.cells \ (M ∪ S) ∧ s₁.count = s₀.count - M.card

theorem sentEvolve_refl (s : Sentence) : SentEvolve s s ∅ ∅ := by
  refine ⟨Finset.empty_subset _, Finset.empty_subset _, Finset.disjoint_empty_left _, ?_, ?_⟩ <;>
    simp

theorem sentEvolve_trans {s₀ s₁ s₂ : Sentence} {M₁ S₁ M₂ S₂ : Finset Cell}
    (h₁ : SentEvolve s₀ s₁ M₁ S₁) (h₂ : SentEvolve s₁ s₂ M₂ S₂) :
    SentEvolve s₀ s₂ (M₁ ∪ M₂) (S₁ ∪ S₂) := by
  obtain ⟨hM₁, hS₁, hd₁, hc₁, hn₁⟩ := h₁
  obtain ⟨hM₂, hS₂, hd₂, hc₂, hn₂⟩ := h₂
  have hM₂' : M₂ ⊆ s₀.cells \ (M₁ ∪ S₁) := hc₁ ▸ hM₂
  have hS₂' : S₂ ⊆ s₀.cells \ (M₁ ∪ S₁) := hc₁ ▸ hS₂
  have hdM : Disjoint M₁ M₂ := by
    rw [Finset.disjoint_right]
    intro x hx
    have := hM₂' hx
    rw [Finset.mem_sdiff, Finset.mem_union] at this
    tauto
  refine ⟨?_, ?_, ?_, ?_, ?_⟩
  · exact Finset.union_subset hM₁ (hM₂.trans (hc₁ ▸ Finset.sdiff_subset))
  · exact Finset.union_subset hS₁ (hS₂.trans (hc₁ ▸ Finset.sdiff_subset))
  · rw [Finset.disjoint_left]
    intro x hx hx'
    rw [Finset.mem_union] at hx hx'
    rcases hx with hx | hx <;> rcases hx' with hx' | hx'
    · exact (Finset.disjoint_left.mp hd₁) hx hx'
    · have := hS₂' hx'
      rw [Finset.mem_sdiff, Finset.mem_union] at this
      tauto
    · have := hM₂' hx
      rw [Finset.mem_sdiff, Finset.mem_union] at this
      tauto
    · exact (Finset.disjoint_left.mp hd₂) hx hx'
  · rw [hc₂, hc₁]
    ext x
    simp only [Finset.mem_sdiff, Finset.mem_union]
    tauto
  · rw [hn₂, hn₁, Finset.card_union_of_disjoint hdM]
    push_cast
    ring

/-- The pass's reachability invariant between an earlier and a later state:
the board and the moves are unchanged, the global safes and mines sets only
grew, the knowledge list only gained sentences at the end, and each
original sentence evolved by broadcast classifications recorded in the
later global sets. -/
def StateLE (a b : AI) : Prop :=
  a.height = b.height ∧ a.width = b.width ∧ a.moves_made = b.moves_made ∧
  a.safes ⊆ b.safes ∧ a.mines ⊆ b.mines ∧
  a.knowledge.length ≤ b.knowledge.length ∧
  ∀ i, i < a.knowledge.length →
    ∃ M S, M ⊆ b.mines ∧ S ⊆ b.safes ∧
      SentEvolve (a.knowledge.getD i dfltSentence) (b.knowledge.getD i dfltSentence) M S

theorem stateLE_refl (a : AI) : StateLE a a :=
  ⟨Eq.refl _, Eq.refl _, Eq.refl _, subset_rfl, subset_rfl, le_rfl,
   fun _ _ => ⟨∅, ∅, Finset.empty_subset _, Finset.empty_subset _,
     sentEvolve_refl _⟩⟩

theorem stateLE_trans {a b c : AI} (hab : StateLE a b) (hbc : StateLE b c) : StateLE a c := by
  obtain ⟨h1, h2, h3, h4, h5, h6, h7⟩ := hab
  obtain ⟨g1, g2, g3, g4, g5, g6, g7⟩ := hbc
  refine ⟨h1.trans g1, h2.trans g2, h3.trans g3, h4.trans g4, h5.trans g5, h6.trans g6, ?_⟩
  intro i hi
  obtain ⟨M₁, S₁, hM₁, hS₁, he₁⟩ := h7 i hi
  obtain ⟨M₂, S₂, hM₂, hS₂, he₂⟩ := g7 i (lt_of_lt_of_le hi h6)
  exact ⟨M₁ ∪ M₂, S₁ ∪ S₂, Finset.union_subset (hM₁.trans g5) hM₂,
    Finset.union_subset (hS₁.trans g4) hS₂, sentEvolve_trans he₁ he₂⟩

/-! ### StateLE holds across every step of a closure pass -/

theorem stateLE_mark_safe (ai : AI) (c : Cell) : StateLE ai (ai.mark_safe c) := by
  refine ⟨Eq.refl _, Eq.refl _, Eq.refl _, Finset.subset_insert _ _, subset_rfl, ?_, ?_⟩
  · simp [AI.mark_safe]
  · intro i hi
    refine ⟨∅, if c ∈ (ai.knowledge.getD i dfltSentence).cells then {c} else ∅,
      Finset.empty_subset _, ?_, ?_⟩
    · split <;> simp [AI.mark_safe]
    · have hmap : (ai.mark_safe c).knowledge.getD i dfltSentence
          = (ai.knowledge.getD i dfltSentence).mark_safe c := by
        simpa [AI.mark_safe] using
          getD_map_lt (fun s => s.mark_safe c) ai.knowledge i dfltSentence hi
      rw [hmap]
      set s := ai.knowledge.getD i dfltSentence with hs
      by_cases hc : c ∈ s.cells
      · simp only [if_pos hc]
        refine ⟨Finset.empty_subset _, by simpa using hc, by simp, ?_, ?_⟩
        · simp [Sentence.mark_safe, if_pos hc, Finset.erase_eq]
        · simp [Sentence.mark_safe, if_pos hc]
      · simp only [if_neg hc]
        have : s.mark_safe c = s := by simp [Sentence.mark_safe, hc]
        rw [this]
        exact sentEvolve_refl s

theorem stateLE_mark_mine (ai : AI) (c : Cell) : StateLE ai (ai.mark_mine c) := by
  refine ⟨Eq.refl _, Eq.refl _, Eq.refl _, subset_rfl, Finset.subset_insert _ _, ?_, ?_⟩
  · simp [AI.mark_mine]
  · intro i hi
    refine ⟨if c ∈ (ai.knowledge.getD i dfltSentence).cells then {c} else ∅, ∅,
      ?_, Finset.empty_subset _, ?_⟩
    · split <;> simp [AI.mark_mine]
    · have hmap : (ai.mark_mine c).knowledge.getD i dfltSentence
          = (ai.knowledge.getD i dfltSentence).mark_mine c := by
        simpa [AI.mark_mine] using
          getD_map_lt (fun s => s.mark_mine c) ai.knowledge i dfltSentence hi
      rw [hmap]
      set s := ai.knowledge.getD i dfltSentence with hs
      by_cases hc : c ∈ s.cells
      · simp only [if_pos hc]
        refine ⟨by simpa using hc, Finset.empty_subset _, by simp, ?_, ?_⟩
        · simp [Sentence.mark_mine, if_pos hc, Finset.erase_eq]
        · simp [Sentence.mark_mine, if_pos hc]
      · simp only [if_neg hc]
        have : s.mark_mine c = s := by simp [Sentence.mark_mine, hc]
        rw [this]
        exact sentEvolve_refl s

theorem stateLE_foldl_mark_safe (l : List Cell) (ai : AI) :
    StateLE ai (l.foldl AI.mark_safe ai) := by
  induction l generalizing ai with
  | nil => exact stateLE_refl ai
  | cons a t ih => exact stateLE_trans (stateLE_mark_safe ai a) (ih (ai.mark_safe a))

theorem stateLE_foldl_mark_mine (l : List Cell) (ai : AI) :
    StateLE ai (l.foldl AI.mark_mine ai) := by
  induction l generalizing ai with
  | nil => exact stateLE_refl ai
  | cons a t ih => exact stateLE_trans (stateLE_mark_mine ai a) (ih (ai.mark_mine a))

theorem stateLE_markAllSafe (ai : AI) (s : Sentence) : StateLE ai (ai.markAllSafe s) :=
  stateLE_foldl_mark_safe _ ai

theorem stateLE_markAllMines (ai : AI) (s : Sentence) : StateLE ai (ai.markAllMines s) :=
  stateLE_foldl_mark_mine _ ai

theorem stateLE_check (ai : AI) (s : Sentence) : StateLE ai (ai.checkNewInformation s) := by
  unfold AI.checkNewInformation
  split
  · exact stateLE_markAllSafe ai s
  · split
    · exact stateLE_markAllMines ai s
    · exact stateLE_refl ai

theorem stateLE_conclud (ai : AI) (s₁ s₂ : Sentence) : StateLE ai (ai.conclud s₁ s₂) := by
  unfold AI.conclud
  split
  · exact stateLE_refl ai
  · refine ⟨Eq.refl _, Eq.refl _, Eq.refl _, subset_rfl, subset_rfl, by simp, ?_⟩
    intro i hi
    refine ⟨∅, ∅, Finset.empty_subset _, Finset.empty_subset _, ?_⟩
    have h : (ai.knowledge ++ [Sentence.init (s₂.cells \ s₁.cells) (s₂.count - s₁.count)]).getD
        i dfltSentence = ai.knowledge.getD i dfltSentence := getD_append_lt _ _ i _ hi
    show SentEvolve (ai.knowledge.getD i dfltSentence)
      ((ai.knowledge ++ [Sentence.init (s₂.cells \ s₁.cells) (s₂.count - s₁.count)]).getD
        i dfltSentence) ∅ ∅
    rw [h]
    exact sentEvolve_refl _

theorem stateLE_innerLoop (fuel : ℕ) : ∀ (ai : AI) (i j : ℕ),
    StateLE ai (innerLoop ai i j fuel) := by
  induction fuel with
  | zero => intro ai i j; exact stateLE_refl ai
  | succ n ih =>
    intro ai i j
    exact stateLE_trans (stateLE_conclud ai _ _) (ih _ i (j + 1))

theorem stateLE_outerLoop (fuel : ℕ) : ∀ (ai : AI) (i : ℕ),
    StateLE ai (outerLoop ai i fuel) := by
  induction fuel with
  | zero => intro ai i; exact stateLE_refl ai
  | succ n ih =>
    intro ai i
    exact stateLE_trans (stateLE_trans (stateLE_check ai _) (stateLE_innerLoop _ _ i i)) (ih _ (i + 1))

/-! ### markAllSafe / markAllMines classify every snapshotted cell -/

theorem foldl_mark_safe_covers (l : List Cell) (ai : AI) :
    ∀ c ∈ l, c ∈ (l.foldl AI.mark_safe ai).safes := by
  induction l generalizing ai with
  | nil => intro c hc; simp at hc
  | cons a t ih =>
    intro c hc
    rcases List.mem_cons.mp hc with h | h
    · subst h
      have h₁ : c ∈ (ai.mark_safe c).safes := by simp [AI.mark_safe]
      exact (stateLE_foldl_mark_safe t (ai.mark_safe c)).2.2.2.1 h₁
    · exact ih (ai.mark_safe a) c h

theorem foldl_mark_mine_covers (l : List Cell) (ai : AI) :
    ∀ c ∈ l, c ∈ (l.foldl AI.mark_mine ai).mines := by
  induction l generalizing ai with
  | nil => intro c hc; simp at hc
  | cons a t ih =>
    intro c hc
    rcases List.mem_cons.mp hc with h | h
    · subst h
      have h₁ : c ∈ (ai.mark_mine c).mines := by simp [AI.mark_mine]
      exact (stateLE_foldl_mark_mine t (ai.mark_mine c)).2.2.2.2.1 h₁
    · exact ih (ai.mark_mine a) c h

theorem markAllSafe_covers (ai : AI) (s : Sentence) :
    ∀ c ∈ s.cells, c ∈ (ai.markAllSafe s).safes := fun c hc =>
  foldl_mark_safe_covers _ ai c (mem_sortCells.mpr hc)

theorem markAllMines_covers (ai : AI) (s : Sentence) :
    ∀ c ∈ s.cells, c ∈ (ai.markAllMines s).mines := fun c hc =>
  foldl_mark_mine_covers _ ai c (mem_sortCells.mpr hc)

/-! ### Trivial resolution across one closure pass -/

theorem outerLoop_marks (a : AI) : ∀ (fuel i : ℕ) (b : AI), StateLE a b →
    ∀ i₀, i ≤ i₀ → i₀ < i + fuel → i₀ < a.knowledge.length →
    (((a.knowledge.getD i₀ dfltSentence).count = 0 →
      (∀ c ∈ (a.knowledge.getD i₀ dfltSentence).cells, c ∉ (outerLoop b i fuel).mines) →
      ∀ c ∈ (a.knowledge.getD i₀ dfltSentence).cells, c ∈ (outerLoop b i fuel).safes) ∧
    ((a.knowledge.getD i₀ dfltSentence).count
        = ((a.knowledge.getD i₀ dfltSentence).cells.card : ℤ) →
      (∀ c ∈ (a.knowledge.getD i₀ dfltSentence).cells, c ∉ (outerLoop b i fuel).safes) →
      ∀ c ∈ (a.knowledge.getD i₀ dfltSentence).cells, c ∈ (outerLoop b i fuel).mines)) := by
  intro fuel
  induction fuel with
  | zero => intro i b _ i₀ hle hlt _; omega
  | succ n ih =>
    intro i b hab i₀ hle hlt hlen
    have hstep : outerLoop b i (n + 1)
        = outerLoop (innerLoop (b.checkNewInformation (b.knowledge.getD i dfltSentence)) i i
            ((b.checkNewInformation (b.knowledge.getD i dfltSentence)).knowledge.length - i))
          (i + 1) n := rfl
    rcases Nat.lt_or_ge i i₀ with hii | hii
    · -- the sentence is processed later in the pass
      have hab2 : StateLE a (innerLoop (b.checkNewInformation (b.knowledge.getD i dfltSentence))
          i i ((b.checkNewInformation (b.knowledge.getD i dfltSentence)).knowledge.length - i)) :=
        stateLE_trans hab (stateLE_trans (stateLE_check b _) (stateLE_innerLoop _ _ i i))
      rw [hstep]
      exact ih (i + 1) _ hab2 i₀ (by omega) (by omega) hlen
    · -- i₀ = i: this iteration applies the trivial-resolution rule to it
      have hi : i₀ = i := le_antisymm (by omega) hle
      subst hi
      rw [hstep]
      set S₀ := a.knowledge.getD i₀ dfltSentence with hS₀def
      set sb := b.knowledge.getD i₀ dfltSentence with hsbdef
      set b1 := b.checkNewInformation sb with hb1def
      set b2 := innerLoop b1 i₀ i₀ (b1.knowledge.length - i₀) with hb2def
      set fin := outerLoop b2 (i₀ + 1) n with hfindef
      have h_b_b1 : StateLE b b1 := stateLE_check b sb
      have h_b1_b2 : StateLE b1 b2 := stateLE_innerLoop _ b1 i₀ i₀
      have h_b2_fin : StateLE b2 fin := stateLE_outerLoop n b2 (i₀ + 1)
      have h_b1_fin : StateLE b1 fin := stateLE_trans h_b1_b2 h_b2_fin
      have h_b_fin : StateLE b fin := stateLE_trans h_b_b1 h_b1_fin
      obtain ⟨M, S, hMb, hSb, hMc, hSc, hdis, hcells, hcount⟩ :=
        hab.2.2.2.2.2.2 i₀ hlen
      constructor
      · intro h0 hnm c hc
        have hM0 : M = ∅ := by
          rw [Finset.eq_empty_iff_forall_not_mem]
          intro x hx
          exact hnm x (hMc hx) (h_b_fin.2.2.2.2.1 (hMb hx))
        have hsc0 : sb.count = 0 := by
          rw [hcount, h0, hM0]; simp
        have hb1eq : b1 = b.markAllSafe sb := by
          rw [hb1def]
          unfold AI.checkNewInformation
          rw [if_pos hsc0]
        by_cases hcs : c ∈ sb.cells
        · have : c ∈ b1.safes := by
            rw [hb1eq]; exact markAllSafe_covers b sb c hcs
          exact h_b1_fin.2.2.2.1 this
        · have hcS : c ∈ S := by
            rw [hcells, hM0] at hcs
            simp only [Finset.mem_sdiff, Finset.empty_union] at hcs
            by_contra hns
            exact hcs ⟨hc, hns⟩
          exact h_b_fin.2.2.2.1 (hSb hcS)
      · intro h1 hns c hc
        have hS0 : S = ∅ := by
          rw [Finset.eq_empty_iff_forall_not_mem]
          intro x hx
          exact hns x (hSc hx) (h_b_fin.2.2.2.1 (hSb hx))
        have hcells' : sb.cells = S₀.cells \ M := by
          rw [hcells, hS0, Finset.union_empty]
        have hcard : (sb.cells.card : ℤ) = (S₀.cells.card : ℤ) - (M.card : ℤ) := by
          rw [hcells', Finset.card_sdiff hMc]
          push_cast [Nat.cast_sub (Finset.card_le_card hMc)]
          ring
        have hsceq : sb.count = (sb.cells.card : ℤ) := by
          rw [hcount, h1, hcard]
        by_cases hz : sb.count = 0
        · -- all of the sentence's remaining cells were already mined away
          have : (sb.cells.card : ℤ) = 0 := by rw [← hsceq, hz]
          have hempty : sb.cells = ∅ := Finset.card_eq_zero.mp (by exact_mod_cast this)
          have hcM : c ∈ M := by
            have : c ∉ sb.cells := by rw [hempty]; exact Finset.not_mem_empty c
            rw [hcells'] at this
            simp only [Finset.mem_sdiff] at this
            by_contra hnM
            exact this ⟨hc, hnM⟩
          exact h_b_fin.2.2.2.2.1 (hMb hcM)
        · have hb1eq : b1 = b.markAllMines sb := by
            rw [hb1def]
            unfold AI.checkNewInformation
            rw [if_neg hz, if_pos]
            show (sb.size : ℤ) = sb.count
            rw [hsceq]; rfl
          by_cases hcs : c ∈ sb.cells
          · have : c ∈ b1.mines := by
              rw [hb1eq]; exact markAllMines_covers b sb c hcs
            exact h_b1_fin.2.2.2.2.1 this
          · have hcM : c ∈ M := by
              rw [hcells'] at hcs
              simp only [Finset.mem_sdiff] at hcs
              by_contra hnM
              exact hcs ⟨hc, hnM⟩
            exact h_b_fin.2.2.2.2.1 (hMb hcM)

theorem sortKnowledge_perm (l : List Sentence) : (sortKnowledge l).Perm l :=
  l.perm_insertionSort kbGE

/-- C2 (amended): every Sentence present at the start of one closure pass
with count 0 has, after the pass, all of its cells in the global safes set,
provided none of those cells ends up in the global mines set during the
pass; symmetrically, a Sentence whose count equals its cell-set size has
all of its cells in the global mines set after the pass, provided none of
those cells ends up in the global safes set during the pass.  (Without the
proviso the property fails: another, contradictory Sentence processed
earlier in the pass can classify the cells the other way.) -/
theorem closure_trivial_resolution_amended (ai : AI) (S₀ : Sentence)
    (hmem : S₀ ∈ ai.knowledge) :
    (S₀.count = 0 →
      (∀ c ∈ S₀.cells, c ∉ (ai.concludNewInformation).mines) →
      ∀ c ∈ S₀.cells, c ∈ (ai.concludNewInformation).safes) ∧
    (S₀.count = (S₀.cells.card : ℤ) →
      (∀ c ∈ S₀.cells, c ∉ (ai.concludNewInformation).safes) →
      ∀ c ∈ S₀.cells, c ∈ (ai.concludNewInformation).mines) := by
  have hmem' : S₀ ∈ sortKnowledge ai.knowledge :=
    (sortKnowledge_perm ai.knowledge).mem_iff.mpr hmem
  obtain ⟨⟨i₀, hi₀⟩, hget⟩ := List.mem_iff_get.mp hmem'
  have hgetD : (sortKnowledge ai.knowledge).getD i₀ dfltSentence = S₀ := by
    rw [getD_eq_get_of_lt _ i₀ _ hi₀]; exact hget
  have h := outerLoop_marks { ai with knowledge := sortKnowledge ai.knowledge }
    (sortKnowledge ai.knowledge).length 0
    { ai with knowledge := sortKnowledge ai.knowledge }
    (stateLE_refl _) i₀ (Nat.zero_le _) (by simpa using hi₀) (by simpa using hi₀)
  show
    (S₀.count = 0 →
      (∀ c ∈ S₀.cells, c ∉ (outerLoop { ai with knowledge := sortKnowledge ai.knowledge } 0
          (sortKnowledge ai.knowledge).length).mines) →
      ∀ c ∈ S₀.cells, c ∈ (outerLoop { ai with knowledge := sortKnowledge ai.knowledge } 0
          (sortKnowledge ai.knowledge).length).safes) ∧
    (S₀.count = (S₀.cells.card : ℤ) →
      (∀ c ∈ S₀.cells, c ∉ (outerLoop { ai with knowledge := sortKnowledge ai.knowledge } 0
          (sortKnowledge ai.knowledge).length).safes) →
      ∀ c ∈ S₀.cells, c ∈ (outerLoop { ai with knowledge := sortKnowledge ai.knowledge } 0
          (sortKnowledge ai.knowledge).length).mines)
  rw [← hgetD]
  exact h

/-- C2 (counterexample): with the contradictory knowledge list
[{(0,0)} = 1, {(0,0)} = 0] at the start of the pass, the second sentence
has count 0 and (0,0) among its cells, yet after the pass (0,0) is not in
safes (the first sentence marked it a mine first). -/
theorem closure_trivial_resolution_cex :
    (Sentence.init {((0:ℤ),(0:ℤ))} 0).count = 0 ∧
    ((0:ℤ),(0:ℤ)) ∈ (Sentence.init {((0:ℤ),(0:ℤ))} 0).cells ∧
    Sentence.init {((0:ℤ),(0:ℤ))} 0 ∈ ({ AI.init 1 1 with knowledge :=
        [Sentence.init {((0:ℤ),(0:ℤ))} 1, Sentence.init {((0:ℤ),(0:ℤ))} 0] } : AI).knowledge ∧
    ((0:ℤ),(0:ℤ)) ∉ (AI.concludNewInformation { AI.init 1 1 with knowledge :=
        [Sentence.init {((0:ℤ),(0:ℤ))} 1, Sentence.init {((0:ℤ),(0:ℤ))} 0] }).safes := by
  decide

/-- C2 (witness): on the knowledge list [{(0,0)} = 0] the amended theorem
applies: no cell gets mined during the pass, and (0,0) is marked safe. -/
theorem closure_trivial_resolution_witness :
    ((0:ℤ),(0:ℤ)) ∈ (AI.concludNewInformation { AI.init 1 1 with knowledge :=
        [Sentence.init {((0:ℤ),(0:ℤ))} 0] }).safes :=
  (closure_trivial_resolution_amended
      { AI.init 1 1 with knowledge := [Sentence.init {((0:ℤ),(0:ℤ))} 0] }
      (Sentence.init {((0:ℤ),(0:ℤ))} 0) (by decide)).1 rfl (by decide)
    ((0:ℤ),(0:ℤ)) (by decide)

/-! ### Frame facts about the closure pass and pruning -/

theorem concludNewInformation_frame (ai : AI) :
    (ai.concludNewInformation).moves_made = ai.moves_made ∧
    ai.safes ⊆ (ai.concludNewInformation).safes ∧
    ai.mines ⊆ (ai.concludNewInformation).mines := by
  have h := stateLE_outerLoop (sortKnowledge ai.knowledge).length
    { ai with knowledge := sortKnowledge ai.knowledge } 0
  exact ⟨h.2.2.1.symm, h.2.2.2.1, h.2.2.2.2.1⟩

theorem clean_frame (ai : AI) :
    (ai.clean).moves_made = ai.moves_made ∧ (ai.clean).safes = ai.safes ∧
    (ai.clean).mines = ai.mines := ⟨rfl, rfl, rfl⟩

theorem add_knowledge_state (ai : AI) (cell : Cell) (count : ℤ) :
    ∃ b : AI, ai.add_knowledge cell count = (b.concludNewInformation).clean ∧
      b.moves_made = insert cell ai.moves_made ∧ b.safes = insert cell ai.safes :=
  ⟨_, rfl, rfl, rfl⟩

theorem add_knowledge_moves_made (ai : AI) (cell : Cell) (count : ℤ) :
    (ai.add_knowledge cell count).moves_made = insert cell ai.moves_made := by
  obtain ⟨b, heq, hm, _⟩ := add_knowledge_state ai cell count
  have hcl : ((b.concludNewInformation).clean).moves_made
      = (b.concludNewInformation).moves_made := rfl
  rw [heq, hcl, (concludNewInformation_frame b).1, hm]

theorem add_knowledge_safes_mono (ai : AI) (cell : Cell) (count : ℤ) :
    insert cell ai.safes ⊆ (ai.add_knowledge cell count).safes := by
  obtain ⟨b, heq, _, hs⟩ := add_knowledge_state ai cell count
  intro x hx
  have hcl : ((b.concludNewInformation).clean).safes = (b.concludNewInformation).safes := rfl
  rw [heq, hcl]
  exact (concludNewInformation_frame b).2.1 (hs ▸ hx)

/-- C10: moves_made ⊆ safes holds in the initial state and is preserved by
every add_knowledge call: the queried cell is inserted into moves_made and
declared safe during ingestion, and the closure pass never removes from
safes and never touches moves_made. -/
theorem moves_made_subset_safes :
    (∀ h w, (AI.init h w).moves_made ⊆ (AI.init h w).safes) ∧
    ∀ (ai : AI) (cell : Cell) (count : ℤ), ai.moves_made ⊆ ai.safes →
      (ai.add_knowledge cell count).moves_made ⊆ (ai.add_knowledge cell count).safes := by
  constructor
  · intro h w
    exact subset_rfl
  · intro ai cell count hss
    rw [add_knowledge_moves_made ai cell count]
    intro x hx
    apply add_knowledge_safes_mono ai cell count
    rcases Finset.mem_insert.mp hx with h | h
    · exact h ▸ Finset.mem_insert_self _ _
    · exact Finset.mem_insert_of_mem (hss h)

/-- C10 (witness): a concrete add_knowledge call starting from the initial
state keeps moves_made inside safes. -/
theorem moves_made_subset_safes_witness :
    ((AI.init 2 2).add_knowledge ((0:ℤ),(0:ℤ)) 1).moves_made ⊆
      ((AI.init 2 2).add_knowledge ((0:ℤ),(0:ℤ)) 1).safes :=
  moves_made_subset_safes.2 (AI.init 2 2) ((0:ℤ),(0:ℤ)) 1 (by decide)

/-- C1 (amended): for an ordered pair (A, B) handed to conclud, if B's cell
set is non-empty and a subset of A's, exactly the sentence with cell set
B.cells − A.cells (which is then empty) and count B.count − A.count is
appended; otherwise the state is unchanged; and self-pairing a sentence
with a NON-EMPTY cell set appends the empty sentence with count 0 (an
empty sentence paired with itself is rejected by the emptiness guard and
appends nothing). -/
theorem conclud_pairwise_resolution (ai : AI) (A B : Sentence) :
    (B.cells ≠ ∅ → B.cells ⊆ A.cells →
      (ai.conclud A B).knowledge
        = ai.knowledge ++ [Sentence.init (B.cells \ A.cells) (B.count - A.count)] ∧
      B.cells \ A.cells = ∅) ∧
    (B.cells = ∅ ∨ ¬ B.cells ⊆ A.cells → ai.conclud A B = ai) ∧
    (A.cells ≠ ∅ → (ai.conclud A A).knowledge = ai.knowledge ++ [Sentence.init ∅ 0]) := by
  refine ⟨?_, ?_, ?_⟩
  · intro hne hsub
    have hcond : ¬ (B.cells = ∅ ∨ ¬ B.cells ⊆ A.cells) := by
      push_neg; exact ⟨hne, hsub⟩
    constructor
    · unfold AI.conclud
      rw [if_neg hcond]
    · exact Finset.sdiff_eq_empty_iff_subset.mpr hsub
  · intro h
    unfold AI.conclud
    rw [if_pos h]
  · intro hne
    have hcond : ¬ (A.cells = ∅ ∨ ¬ A.cells ⊆ A.cells) := by
      push_neg; exact ⟨hne, subset_rfl⟩
    unfold AI.conclud
    rw [if_neg hcond, Finset.sdiff_self, sub_self]

/-- C1 (counterexample): pairing the empty sentence with itself appends
nothing — the knowledge list stays [], not [] ++ [∅ = 0] as the claim's
self-pairing clause demands. -/
theorem conclud_self_pair_empty_cex :
    (AI.conclud (AI.init 2 2) (Sentence.init ∅ 0) (Sentence.init ∅ 0)).knowledge
      ≠ (AI.init 2 2).knowledge ++ [Sentence.init ∅ 0] := by decide

/-- C1 (witness): a concrete subset pair for which conclud appends exactly
the (empty-cell-set) difference sentence. -/
theorem conclud_pairwise_resolution_witness :
    (AI.conclud (AI.init 2 2) (Sentence.init {((0:ℤ),(0:ℤ)), ((0:ℤ),(1:ℤ))} 1)
        (Sentence.init {((0:ℤ),(0:ℤ))} 1)).knowledge
      = (AI.init 2 2).knowledge ++ [Sentence.init
          ((Sentence.init {((0:ℤ),(0:ℤ))} 1).cells
            \ (Sentence.init {((0:ℤ),(0:ℤ)), ((0:ℤ),(1:ℤ))} 1).cells)
          ((Sentence.init {((0:ℤ),(0:ℤ))} 1).count
            - (Sentence.init {((0:ℤ),(0:ℤ)), ((0:ℤ),(1:ℤ))} 1).count)] ∧
      (Sentence.init {((0:ℤ),(0:ℤ))} 1).cells
        \ (Sentence.init {((0:ℤ),(0:ℤ)), ((0:ℤ),(1:ℤ))} 1).cells = ∅ :=
  (conclud_pairwise_resolution (AI.init 2 2) _ _).1 (by decide) (by decide)

/-- C3 (counterexample): the sentence {(0,0)} = 0 satisfies
0 ≤ count ≤ |cells|, but after mark_mine((0,0)) its count is −1. -/
theorem sentence_count_invariant_cex :
    (0 ≤ (Sentence.init {((0:ℤ),(0:ℤ))} 0).count ∧
      (Sentence.init {((0:ℤ),(0:ℤ))} 0).count
        ≤ ((Sentence.init {((0:ℤ),(0:ℤ))} 0).cells.card : ℤ)) ∧
    ¬ 0 ≤ ((Sentence.init {((0:ℤ),(0:ℤ))} 0).mark_mine ((0:ℤ),(0:ℤ))).count := by decide

/-- C3 (amended): a sentence with 0 ≤ count ≤ |cells| keeps the invariant
after mark_mine(cell) provided count ≥ 1 whenever the cell is present, and
after mark_safe(cell) provided count < |cells| whenever the cell is
present (removing a present cell with count = 0 drives count below 0;
removing a present safe cell with count = |cells| leaves count above the
new size). -/
theorem sentence_count_invariant_amended (s : Sentence) (c : Cell)
    (h₀ : 0 ≤ s.count) (h₁ : s.count ≤ (s.cells.card : ℤ)) :
    ((c ∈ s.cells → 1 ≤ s.count) →
      0 ≤ (s.mark_mine c).count ∧
        (s.mark_mine c).count ≤ ((s.mark_mine c).cells.card : ℤ)) ∧
    ((c ∈ s.cells → s.count < (s.cells.card : ℤ)) →
      0 ≤ (s.mark_safe c).count ∧
        (s.mark_safe c).count ≤ ((s.mark_safe c).cells.card : ℤ)) := by
  constructor
  · intro hm
    unfold Sentence.mark_mine
    by_cases hc : c ∈ s.cells
    · rw [if_pos hc]
      have hcard : (s.cells.erase c).card = s.cells.card - 1 :=
        Finset.card_erase_of_mem hc
      have hpos : 1 ≤ s.cells.card := Finset.card_pos.mpr ⟨c, hc⟩
      have h2 := hm hc
      simp only [hcard]
      omega
    · rw [if_neg hc]
      exact ⟨h₀, h₁⟩
  · intro hm
    unfold Sentence.mark_safe
    by_cases hc : c ∈ s.cells
    · rw [if_pos hc]
      have hcard : (s.cells.erase c).card = s.cells.card - 1 :=
        Finset.card_erase_of_mem hc
      have hpos : 1 ≤ s.cells.card := Finset.card_pos.mpr ⟨c, hc⟩
      have h2 := hm hc
      simp only [hcard]
      omega
    · rw [if_neg hc]
      exact ⟨h₀, h₁⟩

/-- C3 (witness): {(0,0)} = 1 satisfies the invariant and the amended
precondition, and keeps the invariant through mark_mine((0,0)). -/
theorem sentence_count_invariant_witness :
    0 ≤ ((Sentence.init {((0:ℤ),(0:ℤ))} 1).mark_mine ((0:ℤ),(0:ℤ))).count ∧
      ((Sentence.init {((0:ℤ),(0:ℤ))} 1).mark_mine ((0:ℤ),(0:ℤ))).count
        ≤ (((Sentence.init {((0:ℤ),(0:ℤ))} 1).mark_mine ((0:ℤ),(0:ℤ))).cells.card : ℤ) :=
  (sentence_count_invariant_amended (Sentence.init {((0:ℤ),(0:ℤ))} 1) ((0:ℤ),(0:ℤ))
    (by decide) (by decide)).1 (by decide)

/-- C4: clean() removes from the knowledge list while iterating over it, so
two adjacent empty sentences are not both removed: on
[∅ = 0, ∅ = 0] one empty sentence survives the call, contradicting the
claim (and the method's own docstring "to delete all empty sentences"). -/
theorem clean_leaves_empty_sentence :
    (AI.clean { AI.init 2 2 with
        knowledge := [Sentence.init ∅ 0, Sentence.init ∅ 0] }).knowledge
      = [Sentence.init ∅ 0] ∧ (Sentence.init (∅ : Finset Cell) 0).cells = ∅ :=
  ⟨by decide, rfl⟩

/-- C5 (counterexample): two in-bounds add_knowledge calls on a 1×3 board
with inconsistent counts leave (0,0) in safes AND in mines — the
disjointness invariant is not preserved by arbitrary in-bounds
observation sequences. -/
theorem classified_disjoint_cex :
    AI.inBounds (AI.init 1 3) ((0:ℤ),(1:ℤ)) ∧
    ((0:ℤ),(0:ℤ)) ∈ (((AI.init 1 3).add_knowledge ((0:ℤ),(1:ℤ)) 2).add_knowledge
        ((0:ℤ),(1:ℤ)) 0).safes ∧
    ((0:ℤ),(0:ℤ)) ∈ (((AI.init 1 3).add_knowledge ((0:ℤ),(1:ℤ)) 2).add_knowledge
        ((0:ℤ),(1:ℤ)) 0).mines := by decide

/-- C5 (amended): the initial state has empty (hence disjoint) safes and
mines and no sentences; after AI.mark_mine(c) the cell c is in mines and
absent from every live sentence's cell set, and after AI.mark_safe(c) it
is in safes and absent from every live sentence's cell set; disjointness
of safes and mines is preserved by mark_mine(c) when c was not already in
safes, and by mark_safe(c) when c was not already in mines.  Preservation
under arbitrary in-bounds add_knowledge sequences does NOT hold (see the
counterexample): contradictory counts can classify a cell both ways. -/
theorem classify_broadcast_amended (ai : AI) (c : Cell) :
    ((AI.init ai.height ai.width).safes = ∅ ∧ (AI.init ai.height ai.width).mines = ∅ ∧
      (AI.init ai.height ai.width).knowledge = []) ∧
    (c ∈ (ai.mark_mine c).mines ∧ ∀ s ∈ (ai.mark_mine c).knowledge, c ∉ s.cells) ∧
    (c ∈ (ai.mark_safe c).safes ∧ ∀ s ∈ (ai.mark_safe c).knowledge, c ∉ s.cells) ∧
    (Disjoint ai.safes ai.mines → c ∉ ai.safes →
      Disjoint (ai.mark_mine c).safes (ai.mark_mine c).mines) ∧
    (Disjoint ai.safes ai.mines → c ∉ ai.mines →
      Disjoint (ai.mark_safe c).safes (ai.mark_safe c).mines) := by
  refine ⟨⟨rfl, rfl, rfl⟩, ⟨Finset.mem_insert_self c _, ?_⟩,
    ⟨Finset.mem_insert_self c _, ?_⟩, ?_, ?_⟩
  · intro s hs
    obtain ⟨t, _, ht⟩ := List.mem_map.mp hs
    subst ht
    unfold Sentence.mark_mine
    by_cases hct : c ∈ t.cells
    · rw [if_pos hct]
      exact Finset.not_mem_erase c t.cells
    · rw [if_neg hct]
      exact hct
  · intro s hs
    obtain ⟨t, _, ht⟩ := List.mem_map.mp hs
    subst ht
    unfold Sentence.mark_safe
    by_cases hct : c ∈ t.cells
    · rw [if_pos hct]
      exact Finset.not_mem_erase c t.cells
    · rw [if_neg hct]
      exact hct
  · intro hdis hcs
    show Disjoint ai.safes (insert c ai.mines)
    exact Finset.disjoint_insert_right.mpr ⟨hcs, hdis⟩
  · intro hdis hcm
    show Disjoint (insert c ai.safes) ai.mines
    exact Finset.disjoint_insert_left.mpr ⟨hcm, hdis⟩

/-- C5 (witness): the amended theorem at the initial 2×2 state and cell
(0,0): after mark_mine the cell is in mines and safes, mines stay
disjoint; after mark_safe they also stay disjoint. -/
theorem classify_broadcast_witness :
    ((0:ℤ),(0:ℤ)) ∈ ((AI.init 2 2).mark_mine ((0:ℤ),(0:ℤ))).mines ∧
    Disjoint ((AI.init 2 2).mark_mine ((0:ℤ),(0:ℤ))).safes
      ((AI.init 2 2).mark_mine ((0:ℤ),(0:ℤ))).mines ∧
    Disjoint ((AI.init 2 2).mark_safe ((0:ℤ),(0:ℤ))).safes
      ((AI.init 2 2).mark_safe ((0:ℤ),(0:ℤ))).mines :=
  ⟨(classify_broadcast_amended (AI.init 2 2) ((0:ℤ),(0:ℤ))).2.1.1,
   (classify_broadcast_amended (AI.init 2 2) ((0:ℤ),(0:ℤ))).2.2.2.1
     (Finset.disjoint_empty_left _) (Finset.not_mem_empty _),
   (classify_broadcast_amended (AI.init 2 2) ((0:ℤ),(0:ℤ))).2.2.2.2
     (Finset.disjoint_empty_left _) (Finset.not_mem_empty _)⟩

/-! ### Move selectors -/

theorem findMove_sound (ai : AI) : ∀ (l : List Cell) (c : Cell),
    findMove ai l = some c → c ∈ l ∧ c ∉ ai.mines ∧ c ∉ ai.moves_made := by
  intro l
  induction l with
  | nil => intro c h; simp [findMove] at h
  | cons a t ih =>
    intro c h
    unfold findMove at h
    by_cases hcond : a ∉ ai.mines ∧ a ∉ ai.moves_made
    · rw [if_pos hcond] at h
      injection h with h
      subst h
      exact ⟨List.mem_cons_self a t, hcond.1, hcond.2⟩
    · rw [if_neg hcond] at h
      obtain ⟨h1, h2, h3⟩ := ih c h
      exact ⟨List.mem_cons_of_mem a h1, h2, h3⟩

/-- C6: whenever make_random_move returns a cell it is in bounds (each
randrange draw is) and in neither mines nor moves_made (the while-loop
exit condition); and it returns the None sentinel exactly when
|safes| + |mines| = height × width (the guard, the only None return). -/
theorem make_random_move_spec (ai : AI) (draws : List Cell)
    (hd : ∀ d ∈ draws, ai.inBounds d) :
    (∀ c, (ai.make_random_move draws).2 = some (some c) →
      ai.inBounds c ∧ c ∉ ai.mines ∧ c ∉ ai.moves_made) ∧
    ((ai.make_random_move draws).2 = some none ↔
      ai.safes.card + ai.mines.card = ai.height * ai.width) := by
  by_cases hg : ai.safes.card + ai.mines.card = ai.height * ai.width
  · have h2 : (ai.make_random_move draws).2 = some none := by
      unfold AI.make_random_move
      rw [if_pos hg]
    constructor
    · intro c hc
      rw [h2] at hc
      injection hc with hc
      exact Option.noConfusion hc
    · rw [h2]
      exact ⟨fun _ => hg, fun _ => Eq.refl _⟩
  · have h2 : (ai.make_random_move draws).2 = Option.map some (findMove ai draws) := by
      unfold AI.make_random_move
      rw [if_neg hg]
    constructor
    · intro c hc
      rw [h2] at hc
      cases hfm : findMove ai draws with
      | none =>
        rw [hfm] at hc
        exact Option.noConfusion hc
      | some x =>
        rw [hfm] at hc
        injection hc with hc
        injection hc with hc
        subst hc
        obtain ⟨hmem, hnm, hnmm⟩ := findMove_sound ai draws x hfm
        exact ⟨hd x hmem, hnm, hnmm⟩
    · rw [h2]
      constructor
      · intro h
        cases hfm : findMove ai draws with
        | none =>
          rw [hfm] at h
          exact Option.noConfusion h
        | some x =>
          rw [hfm] at h
          injection h with h
          exact Option.noConfusion h
      · intro h
        exact absurd h hg

/-- C6 (witness): on the fresh 1×1 board with a single in-bounds draw the
theorem applies and yields the guarantees at the returned cell (0,0). -/
theorem make_random_move_spec_witness :
    AI.inBounds (AI.init 1 1) ((0:ℤ),(0:ℤ)) ∧
    ((0:ℤ),(0:ℤ)) ∉ (AI.init 1 1).mines ∧
    ((0:ℤ),(0:ℤ)) ∉ (AI.init 1 1).moves_made :=
  (make_random_move_spec (AI.init 1 1) [((0:ℤ),(0:ℤ))] (by decide)).1
    ((0:ℤ),(0:ℤ)) (by decide)

theorem pickNth_mem {s : Finset Cell} (h : 0 < s.card) (idx : ℕ) : pickNth s idx ∈ s := by
  unfold pickNth
  have hlen : idx % s.card < (sortCells s).length := by
    rw [length_sortCells]
    exact Nat.mod_lt _ h
  rw [List.getD_eq_getElem _ _ hlen]
  exact mem_sortCells.mp (List.getElem_mem hlen)

/-- C7: make_safe_move returns an element of safes − moves_made when that
set is non-empty, and returns the None sentinel (distinguishable from
every cell) exactly when the set is empty. -/
theorem make_safe_move_spec (ai : AI) (idx : ℕ) :
    (ai.safes \ ai.moves_made ≠ ∅ →
      ∃ c, (ai.make_safe_move idx).2 = some c ∧ c ∈ ai.safes \ ai.moves_made) ∧
    ((ai.make_safe_move idx).2 = none ↔ ai.safes \ ai.moves_made = ∅) ∧
    ∀ c : Cell, (none : Option Cell) ≠ some c := by
  refine ⟨?_, ⟨?_, ?_⟩, fun c h => by simp at h⟩
  · intro hne
    have hpos : 0 < (ai.safes \ ai.moves_made).card :=
      Finset.card_pos.mpr (Finset.nonempty_iff_ne_empty.mpr hne)
    refine ⟨pickNth (ai.safes \ ai.moves_made) idx, ?_, pickNth_mem hpos idx⟩
    show (if 0 < (ai.safes \ ai.moves_made).card
        then some (pickNth (ai.safes \ ai.moves_made) idx) else none) = _
    rw [if_pos hpos]
  · intro h
    by_cases hpos : 0 < (ai.safes \ ai.moves_made).card
    · have : (ai.make_safe_move idx).2
          = some (pickNth (ai.safes \ ai.moves_made) idx) := by
        show (if 0 < (ai.safes \ ai.moves_made).card
            then some (pickNth (ai.safes \ ai.moves_made) idx) else none) = _
        rw [if_pos hpos]
      rw [this] at h
      simp at h
    · exact Finset.card_eq_zero.mp (by omega)
  · intro h
    show (if 0 < (ai.safes \ ai.moves_made).card
        then some (pickNth (ai.safes \ ai.moves_made) idx) else none) = none
    rw [if_neg]
    rw [h]
    simp

/-- C7 (witness): on a state with safes = {(0,0)} and no moves made the
selector returns some cell of safes − moves_made. -/
theorem make_safe_move_spec_witness :
    ∃ c, (({ AI.init 2 2 with safes := {((0:ℤ),(0:ℤ))} } : AI).make_safe_move 0).2 = some c ∧
      c ∈ ({ AI.init 2 2 with safes := {((0:ℤ),(0:ℤ))} } : AI).safes
        \ ({ AI.init 2 2 with safes := {((0:ℤ),(0:ℤ))} } : AI).moves_made :=
  (make_safe_move_spec { AI.init 2 2 with safes := {((0:ℤ),(0:ℤ))} } 0).1 (by decide)

/-- C8: Sentence.known_mines and Sentence.known_safes call the sets
self.mines / self.safes as functions and therefore raise TypeError instead
of returning normally — evaluated here at the sentence {(0,0)} = 1. -/
theorem known_accessors_type_error :
    (Sentence.init {((0:ℤ),(0:ℤ))} 1).known_mines
        = Except.error "TypeError: set object is not callable" ∧
    (Sentence.init {((0:ℤ),(0:ℤ))} 1).known_safes
        = Except.error "TypeError: set object is not callable" :=
  ⟨rfl, rfl⟩

/-- C9: the move selectors mutate nothing: both return the knowledge-base
state exactly as it was (neither method assigns any attribute of self). -/
theorem move_selectors_pure (ai : AI) (idx : ℕ) (draws : List Cell) :
    (ai.make_safe_move idx).1 = ai ∧ (ai.make_random_move draws).1 = ai := by
  constructor
  · rfl
  · unfold AI.make_random_move
    split <;> rfl
